import Mathlib

/-!
A shallow embedding of the segment validation and reconciliation core of the
dnd-transcriber repository (src/dnd_transcriber), together with theorems about
its behaviour.

Modelling conventions:
- Python floats (segment times and confidence scores) are modelled as rational
  numbers.
- Python strings are modelled as Lean strings, viewed through their underlying
  character lists.  Python str.lower / str.upper are modelled on ASCII (which is
  exactly what Lean's Char.toLower / Char.toUpper implement); str.strip and
  str.split use the four ASCII whitespace characters of Char.isWhitespace; the
  regex word class (backslash-w) is modelled as letters, digits and underscore.
- External collaborators (the Ollama correction oracle and the WhisperX
  transcriber) are modelled as response functions; a transport or parse failure
  is an error value of an Except type.
-/

namespace DndTranscriber

/-! ### Python string primitives -/

/-- ASCII model of the regex word-character class (backslash-w): letters, digits
and the underscore. -/
def isWordChar (c : Char) : Bool := c.isAlphanum || c = '_'

/-- Model of Python str.lower, character-wise on the underlying list
(Char.toLower is exactly the ASCII case folding Python applies to ASCII
letters). -/
def pyLower (s : String) : String := ⟨s.data.map Char.toLower⟩

/-- Model of Python str.upper, character-wise on the underlying list. -/
def pyUpper (s : String) : String := ⟨s.data.map Char.toUpper⟩

/-- Model of Python str.strip on a character list: drop whitespace from both
ends. -/
def pyStripChars (l : List Char) : List Char :=
  ((l.dropWhile Char.isWhitespace).reverse.dropWhile Char.isWhitespace).reverse

/-- Model of Python str.strip. -/
def pyStrip (s : String) : String := ⟨pyStripChars s.data⟩

/-- Model of Python str.startswith. -/
def pyStartsWith (s pre : String) : Bool := pre.data.isPrefixOf s.data

/-- Model of Python substring containment (the in operator on strings):
pyInChars needle hay decides whether needle occurs contiguously in hay. -/
def pyInChars (needle : List Char) : List Char → Bool
  | [] => needle.isEmpty
  | c :: rest => needle.isPrefixOf (c :: rest) || pyInChars needle rest

/-- Model of the Python expression needle in hay for strings. -/
def pyIn (needle hay : String) : Bool := pyInChars needle.data hay.data

/-- Model of Python str.split with no separator: split on runs of whitespace,
discarding empty pieces.  The first argument accumulates the current word in
reverse. -/
def splitWsAux : List Char → List Char → List (List Char)
  | [], cur => if cur.isEmpty then [] else [cur.reverse]
  | c :: cs, cur =>
    if c.isWhitespace then
      if cur.isEmpty then splitWsAux cs [] else cur.reverse :: splitWsAux cs []
    else splitWsAux cs (c :: cur)

/-- Model of Python str.split() (whitespace splitting). -/
def pySplitWs (s : String) : List String := (splitWsAux s.data []).map fun l => ⟨l⟩

/-- Chunk a character list into maximal runs of characters that agree on
isWordChar.  The accumulator holds the current run in reverse. -/
def chunkAux : List Char → List Char → List (List Char)
  | [], cur => if cur.isEmpty then [] else [cur.reverse]
  | c :: cs, [] => chunkAux cs [c]
  | c :: cs, d :: ds =>
    if isWordChar c = isWordChar d then chunkAux cs (c :: d :: ds)
    else (d :: ds).reverse :: chunkAux cs [c]

/-- Maximal runs of word / non-word characters of a character list. -/
def chunkRuns (l : List Char) : List (List Char) := chunkAux l []

/-- A run is a word run when its first character is a word character. -/
def isWordRun (r : List Char) : Bool :=
  match r with
  | [] => false
  | c :: _ => isWordChar c

/-- Model of re.findall of word tokens (the pattern used by the roster code):
the maximal word-character runs of the text, in order. -/
def findallWords (s : String) : List String :=
  ((chunkRuns s.data).filter isWordRun).map fun l => ⟨l⟩

/-- Model of re.sub of a whole-word, case-insensitive occurrence of the token
word by repl: every maximal word run that equals word up to ASCII case is
replaced (the pattern wraps the escaped token in word boundaries, and the token
itself consists of word characters only, so its matches are exactly such
runs). -/
def pySubWordCI (word repl text : String) : String :=
  ⟨((chunkRuns text.data).map fun r =>
      if isWordRun r && (r.map Char.toLower == word.data.map Char.toLower) then repl.data else r).flatten⟩

/-! ### Data model (models.py): a transcription segment -/

/-- Transcription segment, as in models.py: text, speaker, start and end time
in seconds, and an optional confidence score. -/
structure Segment where
  text : String
  speaker : String
  start_time : ℚ
  end_time : ℚ
  confidence : Option ℚ
deriving DecidableEq, Repr

/-! ### confidence.py -/

/-- Index-tracking loop of identify_low_confidence_segments: the first argument
is the index of the head segment. -/
def identifyGo (threshold : ℚ) : Nat → List Segment → List Nat
  | _, [] => []
  | i, seg :: rest =>
    match seg.confidence with
    | some c =>
      if c < threshold then i :: identifyGo threshold (i + 1) rest
      else identifyGo threshold (i + 1) rest
    | none => identifyGo threshold (i + 1) rest

/-- Embedding of identify_low_confidence_segments (confidence.py): indices of
segments whose confidence is present and below the threshold. -/
def identify_low_confidence_segments (segments : List Segment) (threshold : ℚ) : List Nat :=
  identifyGo threshold 0 segments

/-! ### context.py -/

/-- Model of the Python slice l[a:b] for natural bounds. -/
def pySlice (l : List α) (a b : Nat) : List α := (l.take b).drop a

/-- Configuration of the context window manager (context.py). -/
structure ContextWindowManager where
  window_size : Nat
  overlap : Nat
deriving DecidableEq, Repr

/-- Embedding of ContextWindowManager.__init__: the constructor stores both
fields and raises a ValueError when overlap is not below window_size.  The
sizes are modelled as naturals (the pipeline always passes nonnegative
values). -/
def ContextWindowManager.init (window_size overlap : Nat) :
    Except String ContextWindowManager :=
  if overlap ≥ window_size then Except.error "Overlap must be less than window size"
  else Except.ok ⟨window_size, overlap⟩

/-- Embedding of ContextWindowManager.create_windows: one (segment, before,
after) triple per input segment, where before is the slice from
max(0, i - window_size // 2) to i and after is the slice from i + 1 to
min(len, i + 1 + window_size // 2).  Natural subtraction implements the
max(0, _) clamp. -/
def create_windows (window_size : Nat) (segments : List α) :
    List (α × List α × List α) :=
  if segments.isEmpty then []
  else
    segments.enum.map fun p =>
      (p.2, pySlice segments (p.1 - window_size / 2) p.1,
        pySlice segments (p.1 + 1) (min segments.length (p.1 + 1 + window_size / 2)))

/-- Loop of create_overlapping_windows: for i in range(0, len, step), slice a
window of window_size segments, keep it when non-empty, and stop once a window
reaches the end of the list. -/
def rangeLoop (ws step : Nat) (hstep : 0 < step) (segments : List α) (i : Nat) :
    List (List α) :=
  if _h : i < segments.length then
    let window_end := min (i + ws) segments.length
    let window := pySlice segments i window_end
    let rest :=
      if segments.length ≤ window_end then []
      else rangeLoop ws step hstep segments (i + step)
    if window.isEmpty then rest else window :: rest
  else []
termination_by segments.length - i
decreasing_by omega

/-- Embedding of ContextWindowManager.create_overlapping_windows.  In Python
the loop header is range(0, len(segments), step) with step =
window_size - overlap computed on ints: a negative step yields an empty range
(so an empty result), while a zero step raises a ValueError.  With natural
fields, the negative case is window_size < overlap and the zero case is
window_size = overlap. -/
def ContextWindowManager.create_overlapping_windows (m : ContextWindowManager)
    (segments : List α) : Except String (List (List α)) :=
  if segments.isEmpty then Except.ok []
  else if h1 : m.window_size < m.overlap then Except.ok []
  else if h2 : m.window_size = m.overlap then
    Except.error "range() arg 3 must not be zero"
  else
    Except.ok (rangeLoop m.window_size (m.window_size - m.overlap)
      (by omega) segments 0)

/-! ### pipeline.py: _deduplicate_segments -/

/-- Sort key used by _deduplicate_segments: ascending start time. -/
def segLE (a b : Segment) : Prop := a.start_time ≤ b.start_time

instance : DecidableRel segLE := fun a b =>
  inferInstanceAs (Decidable (a.start_time ≤ b.start_time))

instance : IsTotal Segment segLE := ⟨fun a b => le_total a.start_time b.start_time⟩

instance : IsTrans Segment segLE := ⟨fun _ _ _ hab hbc => le_trans hab hbc⟩

/-- One left-to-right pass of _deduplicate_segments over the sorted segment
list.  prev is the previous kept segment and kept holds the earlier kept
segments in reverse order, so prev always corresponds to deduplicated[-1] in
the Python code and replacing deduplicated[-1] is dropping prev. -/
def dedupGo : Segment → List Segment → List Segment → List Segment
  | prev, kept, [] => (prev :: kept).reverse
  | prev, kept, segment :: rest =>
    let current_text := pyStrip segment.text
    let prev_text := pyStrip prev.text
    if current_text = prev_text then
      dedupGo prev kept rest
    else if (segment.start_time < prev.end_time ∧ prev.start_time < segment.end_time ∧
        |segment.start_time - prev.start_time| < 5) ∧
        0 < current_text.length ∧ 0 < prev_text.length ∧
        (pyIn current_text prev_text || pyIn prev_text current_text) = true then
      if prev_text.length < current_text.length then dedupGo segment kept rest
      else dedupGo prev kept rest
    else if 3 < (pySplitWs current_text).length ∧ 3 < (pySplitWs prev_text).length ∧
        (pySplitWs current_text).take 3 = (pySplitWs prev_text).take 3 then
      dedupGo prev kept rest
    else dedupGo segment (prev :: kept) rest

/-- Embedding of _deduplicate_segments (pipeline.py).  Python sorts with a
stable sort keyed on start_time; List.insertionSort with segLE is a stable
sort on the same key, hence produces the same list. -/
def _deduplicate_segments (segments : List Segment) : List Segment :=
  if segments.isEmpty then segments
  else
    match List.insertionSort segLE segments with
    | [] => []
    | s :: rest => dedupGo s [] rest

/-- Deduplication scan exactly as claim C5 words it: drop on exact (stripped)
text equality with the previous kept segment; when the time ranges overlap,
the start times differ by less than five seconds and one text is a substring
of the other, keep the longer text; when both texts have more than three words
and identical first three words, drop the current as a repetition; otherwise
keep the current segment.  Unlike the code, this wording has no nonemptiness
requirement on the two texts in the substring rule. -/
def dedupSpecGo : Segment → List Segment → List Segment → List Segment
  | prev, kept, [] => (prev :: kept).reverse
  | prev, kept, segment :: rest =>
    if pyStrip segment.text = pyStrip prev.text then
      dedupSpecGo prev kept rest
    else if (segment.start_time < prev.end_time ∧ prev.start_time < segment.end_time ∧
        |segment.start_time - prev.start_time| < 5) ∧
        (pyIn (pyStrip segment.text) (pyStrip prev.text)
          || pyIn (pyStrip prev.text) (pyStrip segment.text)) = true then
      if (pyStrip prev.text).length < (pyStrip segment.text).length then
        dedupSpecGo segment kept rest
      else dedupSpecGo prev kept rest
    else if 3 < (pySplitWs (pyStrip segment.text)).length ∧
        3 < (pySplitWs (pyStrip prev.text)).length ∧
        (pySplitWs (pyStrip segment.text)).take 3 = (pySplitWs (pyStrip prev.text)).take 3 then
      dedupSpecGo prev kept rest
    else dedupSpecGo segment (prev :: kept) rest

/-- Whole deduplication pass as claim C5 words it. -/
def dedupSpec (segments : List Segment) : List Segment :=
  if segments.isEmpty then segments
  else
    match List.insertionSort segLE segments with
    | [] => []
    | s :: rest => dedupSpecGo s [] rest

/-- Deduplication scan as claim C5 words it, amended with the nonemptiness
requirement the code imposes on both stripped texts in the substring rule. -/
def dedupSpecAmendedGo : Segment → List Segment → List Segment → List Segment
  | prev, kept, [] => (prev :: kept).reverse
  | prev, kept, segment :: rest =>
    if pyStrip segment.text = pyStrip prev.text then
      dedupSpecAmendedGo prev kept rest
    else if (segment.start_time < prev.end_time ∧ prev.start_time < segment.end_time ∧
        |segment.start_time - prev.start_time| < 5) ∧
        0 < (pyStrip segment.text).length ∧ 0 < (pyStrip prev.text).length ∧
        (pyIn (pyStrip segment.text) (pyStrip prev.text)
          || pyIn (pyStrip prev.text) (pyStrip segment.text)) = true then
      if (pyStrip prev.text).length < (pyStrip segment.text).length then
        dedupSpecAmendedGo segment kept rest
      else dedupSpecAmendedGo prev kept rest
    else if 3 < (pySplitWs (pyStrip segment.text)).length ∧
        3 < (pySplitWs (pyStrip prev.text)).length ∧
        (pySplitWs (pyStrip segment.text)).take 3 = (pySplitWs (pyStrip prev.text)).take 3 then
      dedupSpecAmendedGo prev kept rest
    else dedupSpecAmendedGo segment (prev :: kept) rest

/-- Whole deduplication pass of claim C5, amended with the nonemptiness
requirement in the substring rule. -/
def dedupSpecAmended (segments : List Segment) : List Segment :=
  if segments.isEmpty then segments
  else
    match List.insertionSort segLE segments with
    | [] => []
    | s :: rest => dedupSpecAmendedGo s [] rest

/-! ### roster.py -/

/-- Character roster (roster.py): insertion-ordered mapping of canonical
character names to free-form descriptions, plus the list of player names.
Python dicts preserve insertion order, so the mapping is an association
list. -/
structure CharacterRoster where
  characters : List (String × String)
  player_names : List String
deriving DecidableEq, Repr

/-- Candidate names scanned by find_closest_match, in iteration order:
list(self.characters.keys()) + self.player_names. -/
def CharacterRoster.allNames (r : CharacterRoster) : List String :=
  r.characters.map Prod.fst ++ r.player_names

/-- Inner loop of the _edit_distance dynamic programming: extend the current
row along s2.  The prevRow argument walks the previous row, so its head is
previous_row[j] and the following entry previous_row[j+1]; left is the entry
last appended to the current row (current_row[j]). -/
def distRowRest (c1 : Char) : List Char → List Nat → Nat → List Nat
  | [], _, _ => []
  | c2 :: cs, prevRow, left =>
    let v := min (prevRow.tail.headD 0 + 1)
      (min (left + 1) (prevRow.headD 0 + if c1 = c2 then 0 else 1))
    v :: distRowRest c1 cs prevRow.tail v

/-- One outer step of the _edit_distance dynamic programming: the new row for
character c1 of s1, starting with i + 1. -/
def distNextRow (c1 : Char) (s2 : List Char) (prevRow : List Nat) (i : Nat) : List Nat :=
  (i + 1) :: distRowRest c1 s2 prevRow (i + 1)

/-- Outer loop of the _edit_distance dynamic programming over the characters
of s1, carrying the previous row and the row index. -/
def distLoop (s2 : List Char) : List Char → List Nat → Nat → List Nat
  | [], prevRow, _ => prevRow
  | c1 :: cs, prevRow, i => distLoop s2 cs (distNextRow c1 s2 prevRow i) (i + 1)

/-- Row dynamic programming of _edit_distance after the swap: t1 is the longer
string; an empty t2 short-circuits to the length of t1, otherwise the answer
is the last entry of the final row. -/
def editDistanceCore (t1 t2 : List Char) : Nat :=
  if t2.length = 0 then t1.length
  else (distLoop t2 t1 (List.range (t2.length + 1)) 0).getLastD 0

/-- Embedding of CharacterRoster._edit_distance (roster.py): swap so the first
string is the longer one, then run the row dynamic programming. -/
def _edit_distance (s1 s2 : String) : Nat :=
  if s1.data.length < s2.data.length then editDistanceCore s2.data s1.data
  else editDistanceCore s1.data s2.data

/-- Fuzzy-matching loop of find_closest_match, carrying (best_match,
min_distance); min_distance None models the initial infinity. -/
def fuzzyGo (lname : String) : List String → String × Option Nat → String × Option Nat
  | [], acc => acc
  | n :: rest, (best, minD) =>
    let d := _edit_distance lname (pyLower n)
    let lt : Bool :=
      match minD with
      | none => true
      | some m => decide (d < m)
    if lt && decide (d ≤ 2) then fuzzyGo lname rest (n, some d)
    else fuzzyGo lname rest (best, minD)

/-- Embedding of CharacterRoster.find_closest_match (roster.py): strip and
lower the input, return the empty string unchanged, return the first exact
case-insensitive roster match, otherwise run the fuzzy loop (accepting a
candidate only when its distance is at most 2 and strictly improves). -/
def CharacterRoster.find_closest_match (r : CharacterRoster) (name : String) : String :=
  let lname := pyLower (pyStrip name)
  if lname = "" then lname
  else
    match r.allNames.find? (fun n => lname == pyLower n) with
    | some n => n
    | none => (fuzzyGo lname r.allNames (lname, none)).1

/-- Embedding of CharacterRoster.correct_names_in_text (roster.py): for each
word token longer than two characters (in tokenization order over the original
text), if the closest roster match differs from the token even up to case,
substitute it for every whole-word case-insensitive occurrence in the evolving
text. -/
def CharacterRoster.correct_names_in_text (r : CharacterRoster) (text : String) : String :=
  (findallWords text).foldl
    (fun corrected_text word =>
      if 2 < word.length then
        if r.find_closest_match word ≠ word ∧
            pyLower (r.find_closest_match word) ≠ pyLower word then
          pySubWordCI word (r.find_closest_match word) corrected_text
        else corrected_text
      else corrected_text)
    text

/-! ### The fuzzy selection of find_closest_match, characterized -/

/-- Fuzzy selection as a structural recursion: the first candidate attaining
the minimal distance among those with distance at most 2 (head preferred on
ties, matching first-seen-wins over the iteration order). -/
def fuzzySpec (lname : String) : List String → Option (String × Nat)
  | [] => none
  | n :: rest =>
    match fuzzySpec lname rest with
    | none =>
      if _edit_distance lname (pyLower n) ≤ 2 then
        some (n, _edit_distance lname (pyLower n))
      else none
    | some (b, m) =>
      if _edit_distance lname (pyLower n) ≤ 2 ∧ _edit_distance lname (pyLower n) ≤ m then
        some (n, _edit_distance lname (pyLower n))
      else some (b, m)

/-- Name selection exactly as the spec words it: strip and lower the token;
an exact case-insensitive roster match wins immediately; otherwise the
candidate with the smallest edit distance is accepted only if that distance is
at most 2, ties broken by roster iteration order (first seen wins); with no
acceptable candidate the (lowered) token is returned unchanged. -/
def findClosestSpec (r : CharacterRoster) (name : String) : String :=
  let lname := pyLower (pyStrip name)
  if lname = "" then lname
  else
    match r.allNames.find? (fun n => lname == pyLower n) with
    | some n => n
    | none =>
      match r.allNames.find? (fun n =>
          decide (_edit_distance lname (pyLower n) ≤ 2 ∧
            ∀ x ∈ r.allNames,
              _edit_distance lname (pyLower n) ≤ _edit_distance lname (pyLower x))) with
      | some n => n
      | none => lname

/-! ### validator.py -/

/-- Model of the space-join of segment texts in _try_retranscription. -/
def joinSpace (l : List String) : String := String.intercalate " " l

/-- One raw segment of a retranscription result: the optional text (treated as
empty when absent) and the optional confidence. -/
structure RawSeg where
  text : Option String
  confidence : Option ℚ
deriving DecidableEq, Repr

/-- Model of the external Ollama correction oracle: the raw response text of
the context-fit query and of the correction query, as functions of the segment
text and the context; an error value models a transport or parse failure. -/
structure Oracle where
  fitResponse : String → String → Except Unit String
  correctResponse : String → String → Except Unit String

/-- Model of the external WhisperX transcriber handle: retranscribe_segment as
a function of the requested time span, returning the segments of its result
(the empty list when the result carries no usable segments); an error value
models a raised exception. -/
structure Transcriber where
  retranscribe : ℚ → ℚ → Except Unit (List RawSeg)

/-- Embedding of TranscriptionValidator._check_context_fit (validator.py): ask
the oracle, strip and uppercase the answer, and accept only an answer starting
with YES; any request failure counts as not fitting. -/
def check_context_fit (oracle : Oracle) (text context : String) : Bool :=
  match oracle.fitResponse text context with
  | Except.error _ => false
  | Except.ok resp => pyStartsWith (pyUpper (pyStrip resp)) "YES"

/-- Result dictionary of _try_retranscription: text, confidence and the
confidence_improved flag. -/
structure RetransData where
  text : String
  confidence : ℚ
  confidence_improved : Bool
deriving DecidableEq, Repr

/-- Embedding of TranscriptionValidator._try_retranscription (validator.py),
paired with the number of calls made to the transcriber.  The candidate text
joins the segment texts with spaces and strips the result; the candidate
confidence averages the present segment confidences; confidence_improved holds
when the original confidence is absent or the average exceeds it by more than
0.05; any failure or unusable result falls back to the original text. -/
def _try_retranscription (transcriber : Option Transcriber) (original_text : String)
    (start_time end_time : ℚ) (original_confidence : Option ℚ) : RetransData × Nat :=
  let dflt : RetransData := ⟨original_text, original_confidence.getD 0, false⟩
  match transcriber with
  | none => (dflt, 0)
  | some t =>
    match t.retranscribe start_time end_time with
    | Except.error _ => (dflt, 1)
    | Except.ok segs =>
      if segs.isEmpty then (dflt, 1)
      else
        let retranscribed_text := pyStrip (joinSpace (segs.map fun sg => sg.text.getD ""))
        let confidences := segs.filterMap RawSeg.confidence
        let avg_confidence : ℚ :=
          if confidences.isEmpty then 0 else confidences.sum / confidences.length
        if retranscribed_text = "" then (dflt, 1)
        else
          (⟨retranscribed_text, avg_confidence,
            original_confidence.isNone ||
              decide (original_confidence.getD 0 + 5 / 100 < avg_confidence)⟩, 1)

/-- Embedding of the LLM correction call at the end of validate_segment: the
assembled streamed response is stripped; an empty response or a request
failure yields the input text unchanged. -/
def llm_correct (oracle : Oracle) (text context : String) : String :=
  match oracle.correctResponse text context with
  | Except.error _ => text
  | Except.ok resp => if pyStrip resp = "" then text else pyStrip resp

/-- Return value of the validate_segment embedding: the final text and the
number of context-fit queries, transcriber calls and LLM correction calls. -/
structure ValidateResult where
  text : String
  fitCalls : Nat
  retransCalls : Nat
  llmCalls : Nat
deriving DecidableEq, Repr

/-- Name correction step of validate_segment: applied only when a roster is
configured. -/
def nameCorrectOpt (roster : Option CharacterRoster) (text : String) : String :=
  match roster with
  | some r => r.correct_names_in_text text
  | none => text

/-- Embedding of TranscriptionValidator.validate_segment (validator.py): blank
text returns immediately; the roster correction always runs; with non-blank
context a fitting text returns after one oracle query; otherwise, when the
transcriber, the audio path and both timestamps are available, a
retranscription candidate differing from the current text is written back if
it fits the context or carries improved confidence, and in every remaining
case the LLM correction produces the result. -/
def validate_segment (roster : Option CharacterRoster) (transcriber : Option Transcriber)
    (oracle : Oracle) (text context : String) (audio_path : Option String)
    (start_time end_time : Option ℚ) (original_confidence : Option ℚ) : ValidateResult :=
  if pyStrip text = "" then ⟨text, 0, 0, 0⟩
  else
    let text1 := nameCorrectOpt roster text
    if pyStrip context ≠ "" then
      if check_context_fit oracle text1 context then ⟨text1, 1, 0, 0⟩
      else
        match transcriber, audio_path, start_time, end_time with
        | some t, some _, some st, some et =>
          let rr := _try_retranscription (some t) text1 st et original_confidence
          if rr.1.text ≠ text1 then
            if check_context_fit oracle rr.1.text context then ⟨rr.1.text, 2, rr.2, 0⟩
            else if rr.1.confidence_improved then ⟨rr.1.text, 2, rr.2, 0⟩
            else ⟨llm_correct oracle text1 context, 2, rr.2, 1⟩
          else ⟨llm_correct oracle text1 context, 1, rr.2, 1⟩
        | _, _, _, _ => ⟨llm_correct oracle text1 context, 1, 0, 1⟩
    else ⟨llm_correct oracle text1 context, 0, 0, 1⟩

/-- Oracle whose context-fit response is always YES and whose correction
response rewrites the text (used by witnesses and counterexamples). -/
def oracleYes : Oracle :=
  ⟨fun _ _ => Except.ok "YES", fun _ _ => Except.ok "changed"⟩

/-- Oracle whose context-fit response is always NO (used by the C2
counterexample). -/
def oracleNo : Oracle :=
  ⟨fun _ _ => Except.ok "NO", fun _ _ => Except.ok "llmfix"⟩

/-- Transcriber returning one fresh low-confidence segment (used by the C2
counterexample). -/
def trNoConf : Transcriber :=
  ⟨fun _ _ => Except.ok [⟨some "brand new words", some 0⟩]⟩

/-- Transcriber returning one fresh segment with no confidence value (used by
the C2 witness). -/
def trFresh : Transcriber :=
  ⟨fun _ _ => Except.ok [⟨some "new stuff here", none⟩]⟩

/-- Oracle that judges exactly the fresh candidate text as fitting (used by
the C2 witness). -/
def oracleCand : Oracle :=
  ⟨fun t _ => Except.ok (if t = "new stuff here" then "YES" else "NO"),
    fun _ _ => Except.ok "llmfix"⟩

/-! ### Theorems -/

theorem mem_identifyGo (threshold : ℚ) (k i : Nat) (segments : List Segment) :
    i ∈ identifyGo threshold k segments ↔
      ∃ j seg, segments.get? j = some seg ∧ i = k + j ∧
        ∃ c, seg.confidence = some c ∧ c < threshold := by
  induction segments generalizing k with
  | nil => simp [identifyGo]
  | cons seg rest ih =>
    have step : ∀ m : Nat,
        (i ∈ identifyGo threshold (m + 1) rest ↔
          ∃ j s, rest.get? j = some s ∧ i = m + 1 + j ∧
            ∃ c, s.confidence = some c ∧ c < threshold) := fun m => ih (m + 1)
    constructor
    · intro hmem
      cases hconf : seg.confidence with
      | none =>
        simp only [identifyGo, hconf] at hmem
        obtain ⟨j, s, hg, hij, hc⟩ := (step k).mp hmem
        exact ⟨j + 1, s, by simpa using hg, by omega, hc⟩
      | some c =>
        simp only [identifyGo, hconf] at hmem
        by_cases hlt : c < threshold
        · rw [if_pos hlt] at hmem
          rcases List.mem_cons.mp hmem with h0 | hmem2
          · exact ⟨0, seg, by simp, by omega, c, hconf, hlt⟩
          · obtain ⟨j, s, hg, hij, hc⟩ := (step k).mp hmem2
            exact ⟨j + 1, s, by simpa using hg, by omega, hc⟩
        · rw [if_neg hlt] at hmem
          obtain ⟨j, s, hg, hij, hc⟩ := (step k).mp hmem
          exact ⟨j + 1, s, by simpa using hg, by omega, hc⟩
    · rintro ⟨j, s, hg, hij, c, hconf, hlt⟩
      cases j with
      | zero =>
        simp only [List.get?] at hg
        cases hg
        subst hij
        simp only [identifyGo, hconf, if_pos hlt]
        exact List.mem_cons_self _ _
      | succ j =>
        have hmem : i ∈ identifyGo threshold (k + 1) rest :=
          (step k).mpr ⟨j, s, by simpa using hg, by omega, c, hconf, hlt⟩
        cases hconf2 : seg.confidence with
        | none => simpa [identifyGo, hconf2] using hmem
        | some c2 =>
          simp only [identifyGo, hconf2]
          by_cases hlt2 : c2 < threshold
          · rw [if_pos hlt2]
            exact List.mem_cons_of_mem _ hmem
          · rwa [if_neg hlt2]

/-- C8: a segment index is flagged as low confidence exactly when that
segment's confidence is present and strictly below the threshold; segments with
absent confidence are never flagged. -/
theorem c8_low_confidence_membership (segments : List Segment) (threshold : ℚ) (i : Nat) :
    i ∈ identify_low_confidence_segments segments threshold ↔
      ∃ seg, segments.get? i = some seg ∧
        ∃ c, seg.confidence = some c ∧ c < threshold := by
  unfold identify_low_confidence_segments
  rw [mem_identifyGo]
  constructor
  · rintro ⟨j, s, hg, hij, hc⟩
    exact ⟨s, by simpa [hij] using hg, hc⟩
  · rintro ⟨s, hg, hc⟩
    exact ⟨i, s, hg, by omega, hc⟩

/-- C6: the window builder yields exactly one (focus, before, after) entry per
input segment in original order; before lists the segments at indices
[max(0, i - window_size/2), i) and after those at indices
(i, min(len, i + 1 + window_size/2)), in their original order, so neither side
ever contains the focus position i. -/
theorem c6_create_windows (α : Type) (segments : List α) (window_size i : Nat)
    (h : i < segments.length) :
    (create_windows window_size segments).length = segments.length ∧
    ∃ before after,
      (create_windows window_size segments)[i]? = some (segments[i], before, after) ∧
      before.length = i - (i - window_size / 2) ∧
      (∀ j, before[j]? =
        if i - window_size / 2 + j < i then segments[i - window_size / 2 + j]? else none) ∧
      after.length = min segments.length (i + 1 + window_size / 2) - (i + 1) ∧
      (∀ j, after[j]? =
        if i + 1 + j < min segments.length (i + 1 + window_size / 2)
        then segments[i + 1 + j]? else none) := by
  have hne : ¬ segments.isEmpty := by
    cases segments with
    | nil => simp at h
    | cons a l => simp
  constructor
  · unfold create_windows
    rw [if_neg hne, List.length_map, List.enum_length]
  · refine ⟨pySlice segments (i - window_size / 2) i,
      pySlice segments (i + 1) (min segments.length (i + 1 + window_size / 2)),
      ?_, ?_, ?_, ?_, ?_⟩
    · unfold create_windows
      rw [if_neg hne, List.getElem?_map, List.getElem?_enum]
      simp [h]
    · have hlen : (segments.take i).length = i := by
        rw [List.length_take]
        omega
      simp only [pySlice, List.length_drop, hlen]
    · intro j
      unfold pySlice
      rw [List.getElem?_drop]
      by_cases hj : i - window_size / 2 + j < i
      · rw [if_pos hj]
        exact List.getElem?_take_of_lt hj
      · rw [if_neg hj]
        apply List.getElem?_eq_none
        rw [List.length_take]
        omega
    · have hlen : (segments.take (min segments.length (i + 1 + window_size / 2))).length =
          min segments.length (i + 1 + window_size / 2) := by
        rw [List.length_take]
        omega
      simp only [pySlice, List.length_drop, hlen]
    · intro j
      unfold pySlice
      rw [List.getElem?_drop]
      by_cases hj : i + 1 + j < min segments.length (i + 1 + window_size / 2)
      · rw [if_pos hj]
        exact List.getElem?_take_of_lt hj
      · rw [if_neg hj]
        apply List.getElem?_eq_none
        rw [List.length_take]
        omega

/-- Witness for C6 at a concrete input: the five-segment list of the spec
example with window_size 3 and focus 0. -/
theorem c6_create_windows_witness :
    (create_windows 3 ["A", "B", "C", "D", "E"]).length = 5 :=
  (c6_create_windows String ["A", "B", "C", "D", "E"] 3 0 (by decide)).1

theorem create_overlapping_windows_ok (α : Type) (m : ContextWindowManager)
    (hlt : m.overlap < m.window_size) (segments : List α) :
    ∃ v, m.create_overlapping_windows segments = Except.ok v := by
  by_cases hemp : segments.isEmpty
  · refine ⟨[], ?_⟩
    unfold ContextWindowManager.create_overlapping_windows
    rw [if_pos hemp]
  · refine ⟨rangeLoop m.window_size (m.window_size - m.overlap) (by omega) segments 0, ?_⟩
    unfold ContextWindowManager.create_overlapping_windows
    rw [if_neg hemp, dif_neg (by omega), dif_neg (by omega)]

/-- C9: constructing the context window manager succeeds exactly when overlap
is below window_size, and any successfully constructed manager never raises
from its window-building operations (create_overlapping_windows, the only
operation with an error path, always returns a value). -/
theorem c9_construction_error (α : Type) :
    (∀ window_size overlap : Nat,
      (ContextWindowManager.init window_size overlap).isOk ↔ overlap < window_size) ∧
    (∀ window_size overlap : Nat, ∀ m : ContextWindowManager,
      ContextWindowManager.init window_size overlap = Except.ok m →
      ∀ segments : List α, ∃ v, m.create_overlapping_windows segments = Except.ok v) := by
  constructor
  · intro window_size overlap
    unfold ContextWindowManager.init
    by_cases hc : overlap ≥ window_size
    · rw [if_pos hc]
      constructor
      · intro hk
        simp [Except.isOk, Except.toBool] at hk
      · intro hk
        exact absurd hk (by omega)
    · rw [if_neg hc]
      constructor
      · intro _
        omega
      · intro _
        rfl
  · intro window_size overlap m hok segments
    unfold ContextWindowManager.init at hok
    by_cases hc : overlap ≥ window_size
    · rw [if_pos hc] at hok
      exact Except.noConfusion hok
    · rw [if_neg hc] at hok
      have hm : (⟨window_size, overlap⟩ : ContextWindowManager) = m := by
        simpa using hok
      subst hm
      exact create_overlapping_windows_ok α _ (Nat.not_le.mp hc) segments

/-- Witness for C9: a manager built with window_size 5 and overlap 1 yields a
value (no error) on a one-element segment list. -/
theorem c9_construction_error_witness :
    ∃ v, (ContextWindowManager.mk 5 1).create_overlapping_windows ["A"] = Except.ok v :=
  (c9_construction_error String).2 5 1 ⟨5, 1⟩ rfl ["A"]

theorem segLE_trans {a b c : Segment} (h1 : segLE a b) (h2 : segLE b c) : segLE a c :=
  le_trans h1 h2

theorem dedupGo_sorted (rest : List Segment) : ∀ (prev : Segment) (kept : List Segment),
    List.Sorted segLE kept.reverse → (∀ x ∈ kept, segLE x prev) →
    (∀ x ∈ rest, segLE prev x) → List.Sorted segLE rest →
    List.Sorted segLE (dedupGo prev kept rest) := by
  induction rest with
  | nil =>
    intro prev kept hk hkp _ _
    simp only [dedupGo, List.reverse_cons]
    refine List.pairwise_append.mpr ⟨hk, List.sorted_singleton prev, ?_⟩
    intro a ha b hb
    rw [List.mem_singleton] at hb
    subst hb
    exact hkp a (List.mem_reverse.mp ha)
  | cons seg rest ih =>
    intro prev kept hk hkp h2 h3
    have hps : segLE prev seg := h2 seg (List.mem_cons_self _ _)
    have h2r : ∀ x ∈ rest, segLE prev x := fun x hx => h2 x (List.mem_cons_of_mem _ hx)
    have hss : ∀ x ∈ rest, segLE seg x := List.rel_of_sorted_cons h3
    have h3r : List.Sorted segLE rest := h3.of_cons
    simp only [dedupGo]
    split_ifs with hA hB hC hD
    · exact ih prev kept hk hkp h2r h3r
    · exact ih seg kept hk (fun x hx => segLE_trans (hkp x hx) hps) hss h3r
    · exact ih prev kept hk hkp h2r h3r
    · exact ih prev kept hk hkp h2r h3r
    · refine ih seg (prev :: kept) ?_ ?_ hss h3r
      · simp only [List.reverse_cons]
        refine List.pairwise_append.mpr ⟨hk, List.sorted_singleton prev, ?_⟩
        intro a ha b hb
        rw [List.mem_singleton] at hb
        subst hb
        exact hkp a (List.mem_reverse.mp ha)
      · intro x hx
        rcases List.mem_cons.mp hx with h | h
        · subst h
          exact hps
        · exact segLE_trans (hkp x h) hps

/-- The deduplication pass always returns a list sorted by start time. -/
theorem dedup_sorted (segments : List Segment) :
    List.Sorted segLE (_deduplicate_segments segments) := by
  unfold _deduplicate_segments
  by_cases hemp : segments.isEmpty
  · rw [if_pos hemp]
    cases segments with
    | nil => exact List.sorted_nil
    | cons a l => simp at hemp
  · rw [if_neg hemp]
    have hs := List.sorted_insertionSort segLE segments
    cases hsort : List.insertionSort segLE segments with
    | nil => exact List.sorted_nil
    | cons s rest =>
      rw [hsort] at hs
      exact dedupGo_sorted rest s [] (by simp) (by simp)
        (List.rel_of_sorted_cons hs) hs.of_cons

theorem dedupGo_sublist (rest : List Segment) : ∀ (prev : Segment) (kept : List Segment),
    List.Sublist (dedupGo prev kept rest) (kept.reverse ++ prev :: rest) := by
  induction rest with
  | nil =>
    intro prev kept
    simp only [dedupGo, List.reverse_cons]
    exact List.Sublist.refl _
  | cons seg rest ih =>
    intro prev kept
    have hdrop : List.Sublist (kept.reverse ++ prev :: rest) (kept.reverse ++ prev :: seg :: rest) :=
      List.Sublist.append_left
        (List.Sublist.cons₂ prev (List.Sublist.cons seg (List.Sublist.refl rest))) kept.reverse
    have hrepl : List.Sublist (kept.reverse ++ seg :: rest) (kept.reverse ++ prev :: seg :: rest) :=
      List.Sublist.append_left
        (List.Sublist.cons prev (List.Sublist.refl (seg :: rest))) kept.reverse
    simp only [dedupGo]
    split_ifs with hA hB hC hD
    · exact (ih prev kept).trans hdrop
    · exact (ih seg kept).trans hrepl
    · exact (ih prev kept).trans hdrop
    · exact (ih prev kept).trans hdrop
    · have := ih seg (prev :: kept)
      rw [List.reverse_cons, List.append_assoc] at this
      simpa using this

/-- Running the deduplication pass on an already sorted list can only remove
entries: the result is a sublist of the input. -/
theorem dedup_of_sorted_sublist (out : List Segment) (hs : List.Sorted segLE out) :
    List.Sublist (_deduplicate_segments out) out := by
  unfold _deduplicate_segments
  cases out with
  | nil => simp
  | cons s rest =>
    rw [if_neg (by simp)]
    rw [hs.insertionSort_eq]
    simpa using dedupGo_sublist rest s []

/-- C3 (amended): a second run of the deduplication pass on its own output is
a sublist of that output, i.e. it can only remove further entries; it is not
in general the identity (see the counterexample). -/
theorem c3_dedup_second_pass_sublist (segments : List Segment) :
    List.Sublist (_deduplicate_segments (_deduplicate_segments segments))
      (_deduplicate_segments segments) :=
  dedup_of_sorted_sublist _ (dedup_sorted segments)

/-- C3 counterexample: deduplication is not idempotent.  The middle segment is
first kept, then replaced by the overlapping longer third segment; the second
run then drops that replacement as a repetition of the first segment (shared
first three words), which the first run never compared it against. -/
theorem c3_counterexample :
    _deduplicate_segments (_deduplicate_segments
      [⟨"alpha beta gamma delta", "sp", 0, 10, none⟩,
       ⟨"beta gamma eps", "sp", 1, 3, none⟩,
       ⟨"alpha beta gamma epsilon zeta", "sp", 2, 4, none⟩]) ≠
    _deduplicate_segments
      [⟨"alpha beta gamma delta", "sp", 0, 10, none⟩,
       ⟨"beta gamma eps", "sp", 1, 3, none⟩,
       ⟨"alpha beta gamma epsilon zeta", "sp", 2, 4, none⟩] := by
  with_unfolding_all decide

/-- C4 (amended): the output of the deduplication pass is always sorted
ascending by start_time, whatever the input order; the further uniqueness
guarantees of the claim (no shared (text, start_time) pair and no contained
overlapping duplicate) do not hold in general (see the counterexample). -/
theorem c4_dedup_output_sorted (segments : List Segment) :
    List.Sorted (fun a b => a.start_time ≤ b.start_time) (_deduplicate_segments segments) :=
  dedup_sorted segments

/-- C4 counterexample: the deduplication output can contain two distinct
entries with identical (text, start_time) (the first and third segments here,
separated by an unrelated segment with the same start time), each of which is
also a contained overlapping duplicate of the other. -/
theorem c4_counterexample :
    ¬ List.Pairwise (fun a b => ¬ (a.text = b.text ∧ a.start_time = b.start_time))
      (_deduplicate_segments
        [⟨"a", "sp", 0, 1, none⟩, ⟨"b", "sp", 0, 1, none⟩, ⟨"a", "sp", 0, 1, none⟩]) := by
  with_unfolding_all decide

theorem dedupGo_eq_specAmended (rest : List Segment) :
    ∀ (prev : Segment) (kept : List Segment),
      dedupGo prev kept rest = dedupSpecAmendedGo prev kept rest := by
  induction rest with
  | nil =>
    intro prev kept
    rfl
  | cons seg rest ih =>
    intro prev kept
    simp only [dedupGo, dedupSpecAmendedGo]
    split_ifs <;> apply ih

/-- C5 (amended): the deduplication pass is exactly the claimed
sort-then-scan algorithm, with the substring rule additionally requiring both
stripped texts to be non-empty. -/
theorem c5_dedup_algorithm (segments : List Segment) :
    _deduplicate_segments segments = dedupSpecAmended segments := by
  unfold _deduplicate_segments dedupSpecAmended
  by_cases hemp : segments.isEmpty
  · rw [if_pos hemp, if_pos hemp]
  · rw [if_neg hemp, if_neg hemp]
    cases List.insertionSort segLE segments with
    | nil => rfl
    | cons s rest => exact dedupGo_eq_specAmended rest s []

/-- C5 counterexample: on a segment whose stripped text is empty followed by
an overlapping one-character segment, the code keeps both segments (the
substring rule is skipped because one text is empty), while the claimed rule,
under which the empty string is a substring of every string, would replace
the empty-text segment by the longer one. -/
theorem c5_counterexample :
    _deduplicate_segments [⟨"", "sp", 0, 10, none⟩, ⟨"x", "sp", 1, 3, none⟩] =
      [⟨"", "sp", 0, 10, none⟩, ⟨"x", "sp", 1, 3, none⟩] ∧
    dedupSpec [⟨"", "sp", 0, 10, none⟩, ⟨"x", "sp", 1, 3, none⟩] =
      [⟨"x", "sp", 1, 3, none⟩] := by
  constructor
  · with_unfolding_all decide
  · with_unfolding_all decide

/-! ### Helper lemmas for the name normalizer -/

theorem toLower_toLower (c : Char) : Char.toLower (Char.toLower c) = Char.toLower c := by
  have hcases : Char.toLower c = c ∨
      (65 ≤ c.toNat ∧ c.toNat ≤ 90 ∧ Char.toLower c = Char.ofNat (c.toNat + 32)) := by
    simp only [Char.toLower]
    by_cases h : c.toNat ≥ 65 ∧ c.toNat ≤ 90
    · right
      exact ⟨h.1, h.2, if_pos h⟩
    · left
      exact if_neg h
  rcases hcases with h | ⟨h1, h2, h3⟩
  · rw [h]
    exact h
  · rw [h3]
    have hv : (c.toNat + 32).isValidChar := Or.inl (by omega)
    have ht : (Char.ofNat (c.toNat + 32)).toNat = c.toNat + 32 := by
      simp [Char.ofNat, hv]
      rfl
    simp only [Char.toLower]
    rw [if_neg (by rw [ht]; omega)]

theorem pyLower_pyLower (s : String) : pyLower (pyLower s) = pyLower s := by
  simp [pyLower, List.map_map, Function.comp_def, toLower_toLower]

theorem dropWhile_eq_self_of_all {p : Char → Bool} {l : List Char}
    (h : ∀ c ∈ l, p c = false) : l.dropWhile p = l := by
  cases l with
  | nil => rfl
  | cons c cs =>
    rw [List.dropWhile_cons_of_neg]
    simp [h c (List.mem_cons_self _ _)]

theorem pyStrip_eq_self {s : String} (h : ∀ c ∈ s.data, c.isWhitespace = false) :
    pyStrip s = s := by
  obtain ⟨l⟩ := s
  simp only [String.data] at h
  unfold pyStrip pyStripChars
  rw [dropWhile_eq_self_of_all h,
    dropWhile_eq_self_of_all (fun c hc => h c (List.mem_reverse.mp hc)),
    List.reverse_reverse]

theorem isWordChar_not_whitespace {c : Char} (h : isWordChar c = true) :
    c.isWhitespace = false := by
  by_contra hw
  rw [Bool.not_eq_false] at hw
  have hc := hw
  simp only [Char.isWhitespace, Bool.or_eq_true, decide_eq_true_eq] at hc
  rcases hc with ((h1 | h1) | h1) | h1 <;> subst h1 <;> exact absurd h (by decide)

theorem chunkAux_mem (l : List Char) : ∀ (cur : List Char) (r : List Char),
    (∀ a ∈ cur, ∀ b ∈ cur, isWordChar a = isWordChar b) →
    r ∈ chunkAux l cur →
    r ≠ [] ∧ ∀ a ∈ r, ∀ b ∈ r, isWordChar a = isWordChar b := by
  induction l with
  | nil =>
    intro cur r hcur hr
    simp only [chunkAux] at hr
    by_cases hemp : cur.isEmpty
    · rw [if_pos hemp] at hr
      simp at hr
    · rw [if_neg hemp] at hr
      rw [List.mem_singleton] at hr
      subst hr
      refine ⟨by simpa using hemp, ?_⟩
      intro a ha b hb
      rw [List.mem_reverse] at ha hb
      exact hcur a ha b hb
  | cons c cs ih =>
    intro cur r hcur hr
    cases cur with
    | nil =>
      simp only [chunkAux] at hr
      refine ih [c] r ?_ hr
      intro a ha b hb
      rw [List.mem_singleton] at ha hb
      subst ha
      subst hb
      rfl
    | cons d ds =>
      simp only [chunkAux] at hr
      by_cases hw : isWordChar c = isWordChar d
      · rw [if_pos hw] at hr
        refine ih (c :: d :: ds) r ?_ hr
        have hsame : ∀ x ∈ c :: d :: ds, isWordChar x = isWordChar d := by
          intro x hx
          rcases List.mem_cons.mp hx with h1 | h1
          · subst h1
            exact hw
          · exact hcur x h1 d (List.mem_cons_self _ _)
        intro a ha b hb
        rw [hsame a ha, hsame b hb]
      · rw [if_neg hw] at hr
        rcases List.mem_cons.mp hr with h1 | h1
        · subst h1
          refine ⟨by simp, ?_⟩
          intro a ha b hb
          rw [List.mem_reverse] at ha hb
          exact hcur a ha b hb
        · refine ih [c] r ?_ h1
          intro a ha b hb
          rw [List.mem_singleton] at ha hb
          subst ha
          subst hb
          rfl

theorem findallWords_token {text w : String} (hw : w ∈ findallWords text) :
    w.data ≠ [] ∧ ∀ c ∈ w.data, isWordChar c = true := by
  unfold findallWords at hw
  rw [List.mem_map] at hw
  obtain ⟨r, hr, hwr⟩ := hw
  rw [List.mem_filter] at hr
  obtain ⟨hmem, hword⟩ := hr
  have hfacts := chunkAux_mem text.data [] r (by simp) hmem
  subst hwr
  refine ⟨by simpa using hfacts.1, ?_⟩
  intro c hc
  simp only [String.data] at hc
  cases r with
  | nil => exact absurd rfl hfacts.1
  | cons a rs =>
    have ha : isWordChar a = true := by simpa [isWordRun] using hword
    have := hfacts.2 c hc a (List.mem_cons_self _ _)
    rw [this]
    exact ha

theorem foldl_fixed {α β : Type} : ∀ (l : List α) (f : β → α → β),
    (∀ a ∈ l, ∀ b, f b a = b) → ∀ b, l.foldl f b = b := by
  intro l
  induction l with
  | nil =>
    intro f h b
    rfl
  | cons a t ih =>
    intro f h b
    rw [List.foldl_cons, h a (List.mem_cons_self _ _)]
    exact ih f (fun x hx c => h x (List.mem_cons_of_mem _ hx) c) b

/-! ### The edit distance of a string with itself is zero -/

theorem distRowRest_length (c : Char) : ∀ (s2 : List Char) (prevRow : List Nat) (left : Nat),
    (distRowRest c s2 prevRow left).length = s2.length := by
  intro s2
  induction s2 with
  | nil =>
    intro prevRow left
    rfl
  | cons c2 cs ih =>
    intro prevRow left
    simp only [distRowRest, List.length_cons, ih]

theorem distRowRest_get_zero (c : Char) : ∀ (u v : List Char) (prevRow : List Nat) (left : Nat),
    prevRow.get? u.length = some 0 →
    (distRowRest c (u ++ c :: v) prevRow left).get? u.length = some 0 := by
  intro u
  induction u with
  | nil =>
    intro v prevRow left h0
    cases prevRow with
    | nil => simp at h0
    | cons p rest =>
      have hp : p = 0 := by simpa using h0
      subst hp
      simp [distRowRest]

  | cons a u ih =>
    intro v prevRow left h0
    cases prevRow with
    | nil => simp at h0
    | cons p rest =>
      have h0r : rest.get? u.length = some 0 := by simpa using h0
      simpa only [List.cons_append, distRowRest, List.length_cons, List.get?] using
        ih v (p :: rest).tail _ h0r

theorem distLoop_self (s : List Char) : ∀ (cs pre : List Char) (prevRow : List Nat),
    s = pre ++ cs → prevRow.get? pre.length = some 0 → prevRow.length = s.length + 1 →
    (distLoop s cs prevRow pre.length).get? s.length = some 0 ∧
      (distLoop s cs prevRow pre.length).length = s.length + 1 := by
  intro cs
  induction cs with
  | nil =>
    intro pre prevRow hs h0 hl
    rw [List.append_nil] at hs
    subst hs
    exact ⟨h0, hl⟩
  | cons c1 cs ih =>
    intro pre prevRow hs h0 hl
    simp only [distLoop]
    have hs2 : s = (pre ++ [c1]) ++ cs := by
      rw [hs, List.append_assoc]
      rfl

    have hlen2 : (distNextRow c1 s prevRow pre.length).length = s.length + 1 := by
      simp [distNextRow, distRowRest_length]
    have h02 : (distNextRow c1 s prevRow pre.length).get? (pre ++ [c1]).length = some 0 := by
      have hz := distRowRest_get_zero c1 pre cs prevRow (pre.length + 1) h0
      rw [← hs] at hz
      simpa [distNextRow, List.length_append] using hz
    have := ih (pre ++ [c1]) (distNextRow c1 s prevRow pre.length) hs2 h02 hlen2
    simpa [List.length_append] using this

theorem edit_distance_self (s : String) : _edit_distance s s = 0 := by
  unfold _edit_distance
  rw [if_neg (lt_irrefl _)]
  unfold editDistanceCore
  by_cases hz : s.data.length = 0
  · rw [if_pos hz]
    exact hz
  · rw [if_neg hz]
    have h0 : (List.range (s.data.length + 1)).get? ([] : List Char).length = some 0 := by
      simp [List.get?_range]
    have hl : (List.range (s.data.length + 1)).length = s.data.length + 1 := by
      simp
    obtain ⟨hget, hlen⟩ := distLoop_self s.data s.data [] (List.range (s.data.length + 1))
      (by simp) h0 hl
    simp only [List.length_nil] at hget hlen
    rw [List.getLastD_eq_getLast?, List.getLast?_eq_get?, hlen]
    simp only [Nat.add_sub_cancel]
    rw [hget]
    rfl

theorem fuzzyGo_some (lname : String) : ∀ (l : List String) (b : String) (m : Nat), m ≤ 2 →
    fuzzyGo lname l (b, some m) =
      match fuzzySpec lname l with
      | none => (b, some m)
      | some (c, k) => if k < m then (c, some k) else (b, some m) := by
  intro l
  induction l with
  | nil =>
    intro b m _
    rfl
  | cons n rest ih =>
    intro b m hm
    by_cases hcond : _edit_distance lname (pyLower n) < m ∧ _edit_distance lname (pyLower n) ≤ 2
    · have hgo : fuzzyGo lname (n :: rest) (b, some m) =
          fuzzyGo lname rest (n, some (_edit_distance lname (pyLower n))) := by
        simp only [fuzzyGo]
        rw [if_pos (by simp only [Bool.and_eq_true, decide_eq_true_eq]; exact hcond)]
      rw [hgo, ih n _ hcond.2]
      simp only [fuzzySpec]
      cases hs : fuzzySpec lname rest with
      | none =>
        simp [hcond.1, hcond.2]
      | some bm =>
        obtain ⟨c, k⟩ := bm
        by_cases hw : _edit_distance lname (pyLower n) ≤ 2 ∧
            _edit_distance lname (pyLower n) ≤ k
        · have hnk : ¬ k < _edit_distance lname (pyLower n) := by omega
          simp [hw, hnk, hcond.1]
        · have hk : k < _edit_distance lname (pyLower n) := by
            rcases not_and_or.mp hw with h1 | h1
            · exact absurd hcond.2 h1
            · omega
          have hkm : k < m := by omega
          simp [hw, hk, hkm]
    · have hgo : fuzzyGo lname (n :: rest) (b, some m) = fuzzyGo lname rest (b, some m) := by
        simp only [fuzzyGo]
        rw [if_neg (by simp only [Bool.and_eq_true, decide_eq_true_eq]; exact hcond)]
      rw [hgo, ih b m hm]
      simp only [fuzzySpec]
      cases hs : fuzzySpec lname rest with
      | none =>
        by_cases hd2 : _edit_distance lname (pyLower n) ≤ 2
        · have hnd : ¬ _edit_distance lname (pyLower n) < m := fun hc => hcond ⟨hc, hd2⟩
          simp [hd2, hnd]
        · simp [hd2]
      | some bm =>
        obtain ⟨c, k⟩ := bm
        by_cases hw : _edit_distance lname (pyLower n) ≤ 2 ∧
            _edit_distance lname (pyLower n) ≤ k
        · have hnd : ¬ _edit_distance lname (pyLower n) < m := fun hc => hcond ⟨hc, hw.1⟩
          have hnk : ¬ k < m := by omega
          simp [hw, hnd, hnk]
        · simp [hw]

theorem fuzzyGo_none (lname : String) : ∀ (l : List String) (b : String),
    fuzzyGo lname l (b, none) =
      match fuzzySpec lname l with
      | none => (b, none)
      | some (c, k) => (c, some k) := by
  intro l
  induction l with
  | nil =>
    intro b
    rfl
  | cons n rest ih =>
    intro b
    by_cases hd2 : _edit_distance lname (pyLower n) ≤ 2
    · have hgo : fuzzyGo lname (n :: rest) (b, none) =
          fuzzyGo lname rest (n, some (_edit_distance lname (pyLower n))) := by
        simp only [fuzzyGo]
        rw [if_pos (by simp only [Bool.true_and, decide_eq_true_eq]; exact hd2)]
      rw [hgo, fuzzyGo_some lname rest n _ hd2]
      simp only [fuzzySpec]
      cases hs : fuzzySpec lname rest with
      | none =>
        simp [hd2]
      | some bm =>
        obtain ⟨c, k⟩ := bm
        by_cases hw : _edit_distance lname (pyLower n) ≤ 2 ∧
            _edit_distance lname (pyLower n) ≤ k
        · have hnk : ¬ k < _edit_distance lname (pyLower n) := by omega
          simp [hw, hnk]
        · have hk : k < _edit_distance lname (pyLower n) := by
            rcases not_and_or.mp hw with h1 | h1
            · exact absurd hd2 h1
            · omega
          simp [hw, hk]
    · have hgo : fuzzyGo lname (n :: rest) (b, none) = fuzzyGo lname rest (b, none) := by
        simp only [fuzzyGo]
        rw [if_neg (by simp only [Bool.true_and, decide_eq_true_eq]; exact hd2)]
      rw [hgo, ih b]
      simp only [fuzzySpec]
      cases hs : fuzzySpec lname rest with
      | none =>
        simp [hd2]
      | some bm =>
        obtain ⟨c, k⟩ := bm
        have hnw : ¬ (_edit_distance lname (pyLower n) ≤ 2 ∧
            _edit_distance lname (pyLower n) ≤ k) := fun hc => hd2 hc.1
        simp [hnw]

theorem fuzzySpec_none_iff (lname : String) : ∀ l : List String,
    fuzzySpec lname l = none ↔
      ∀ n ∈ l, ¬ (_edit_distance lname (pyLower n) ≤ 2) := by
  intro l
  induction l with
  | nil => simp [fuzzySpec]
  | cons n rest ih =>
    simp only [fuzzySpec]
    cases hs : fuzzySpec lname rest with
    | none =>
      by_cases hd2 : _edit_distance lname (pyLower n) ≤ 2
      · rw [if_pos hd2]
        constructor
        · intro hcontra
          exact Option.noConfusion hcontra
        · intro hall
          exact absurd hd2 (hall n (List.mem_cons_self _ _))
      · rw [if_neg hd2]
        constructor
        · intro _ x hx
          rcases List.mem_cons.mp hx with h1 | h1
          · subst h1
            exact hd2
          · exact (ih.mp hs) x h1
        · intro _
          rfl
    | some bm =>
      obtain ⟨c, k⟩ := bm
      dsimp only
      have hrest : ¬ ∀ x ∈ rest, ¬ (_edit_distance lname (pyLower x) ≤ 2) := by
        intro hall
        exact Option.noConfusion ((ih.mpr hall).symm.trans hs)
      constructor
      · intro hnone
        split_ifs at hnone
      · intro hall
        exact absurd (fun x hx => hall x (List.mem_cons_of_mem _ hx)) hrest

theorem fuzzySpec_some (lname : String) : ∀ (l : List String) (b : String) (m : Nat),
    fuzzySpec lname l = some (b, m) →
    m ≤ 2 ∧ _edit_distance lname (pyLower b) = m ∧
      (∀ x ∈ l, m ≤ _edit_distance lname (pyLower x)) ∧
      ∃ l1 l2, l = l1 ++ b :: l2 ∧ ∀ x ∈ l1, m < _edit_distance lname (pyLower x) := by
  intro l
  induction l with
  | nil =>
    intro b m h
    exact Option.noConfusion h
  | cons n rest ih =>
    intro b m h
    simp only [fuzzySpec] at h
    cases hs : fuzzySpec lname rest with
    | none =>
      rw [hs] at h
      dsimp only at h
      by_cases hd2 : _edit_distance lname (pyLower n) ≤ 2
      · rw [if_pos hd2] at h
        simp only [Option.some.injEq, Prod.mk.injEq] at h
        obtain ⟨hb, hm⟩ := h
        subst hb
        subst hm
        have hfar := (fuzzySpec_none_iff lname rest).mp hs
        refine ⟨hd2, rfl, ?_, [], rest, rfl, by simp⟩
        intro x hx
        rcases List.mem_cons.mp hx with h1 | h1
        · subst h1
          exact le_refl _
        · have := hfar x h1
          omega
      · rw [if_neg hd2] at h
        exact Option.noConfusion h
    | some bm =>
      obtain ⟨c, k⟩ := bm
      rw [hs] at h
      dsimp only at h
      obtain ⟨hk2, hck, hall, l1, l2, hdec, hbef⟩ := ih c k hs
      by_cases hw : _edit_distance lname (pyLower n) ≤ 2 ∧
          _edit_distance lname (pyLower n) ≤ k
      · rw [if_pos hw] at h
        simp only [Option.some.injEq, Prod.mk.injEq] at h
        obtain ⟨hb, hm⟩ := h
        subst hb
        subst hm
        refine ⟨hw.1, rfl, ?_, [], rest, rfl, by simp⟩
        intro x hx
        rcases List.mem_cons.mp hx with h1 | h1
        · subst h1
          exact le_refl _
        · exact le_trans hw.2 (hall x h1)
      · rw [if_neg hw] at h
        simp only [Option.some.injEq, Prod.mk.injEq] at h
        obtain ⟨hb, hm⟩ := h
        subst hb
        subst hm
        have hkd : k < _edit_distance lname (pyLower n) := by
          rcases not_and_or.mp hw with h1 | h1
          · omega
          · omega
        refine ⟨hk2, hck, ?_, n :: l1, l2, by rw [hdec]; rfl, ?_⟩
        · intro x hx
          rcases List.mem_cons.mp hx with h1 | h1
          · subst h1
            omega
          · exact hall x h1
        · intro x hx
          rcases List.mem_cons.mp hx with h1 | h1
          · subst h1
            exact hkd
          · exact hbef x h1

theorem find?_append_cons {α : Type} (p : α → Bool) : ∀ (l1 : List α) (b : α) (l2 : List α),
    p b = true → (∀ x ∈ l1, p x = false) →
    List.find? p (l1 ++ b :: l2) = some b := by
  intro l1
  induction l1 with
  | nil =>
    intro b l2 hb _
    rw [List.nil_append]
    exact List.find?_cons_of_pos _ hb
  | cons a t ih =>
    intro b l2 hb hall
    rw [List.cons_append, List.find?_cons_of_neg]
    · exact ih b l2 hb (fun x hx => hall x (List.mem_cons_of_mem _ hx))
    · simp [hall a (List.mem_cons_self _ _)]

theorem find_closest_match_eq_spec (r : CharacterRoster) (name : String) :
    r.find_closest_match name = findClosestSpec r name := by
  unfold CharacterRoster.find_closest_match findClosestSpec
  by_cases hempty : pyLower (pyStrip name) = ""
  · rw [if_pos hempty, if_pos hempty]
  · rw [if_neg hempty, if_neg hempty]
    cases hex : List.find? (fun n => pyLower (pyStrip name) == pyLower n) r.allNames with
    | some n => rfl
    | none =>
      dsimp only
      rw [fuzzyGo_none]
      cases hs : fuzzySpec (pyLower (pyStrip name)) r.allNames with
      | none =>
        have hall := (fuzzySpec_none_iff (pyLower (pyStrip name)) r.allNames).mp hs
        have hfind : List.find? (fun n =>
            decide (_edit_distance (pyLower (pyStrip name)) (pyLower n) ≤ 2 ∧
              ∀ x ∈ r.allNames,
                _edit_distance (pyLower (pyStrip name)) (pyLower n) ≤
                  _edit_distance (pyLower (pyStrip name)) (pyLower x))) r.allNames = none := by
          rw [List.find?_eq_none]
          intro x hx
          simp only [decide_eq_true_eq, not_and]
          intro h2 _
          exact absurd h2 (hall x hx)
        rw [hfind]
      | some bm =>
        obtain ⟨b, m⟩ := bm
        obtain ⟨hm2, hdb, hall, l1, l2, hdec, hbef⟩ :=
          fuzzySpec_some (pyLower (pyStrip name)) r.allNames b m hs
        rw [hdec] at hall ⊢
        have hpb : (fun n =>
            decide (_edit_distance (pyLower (pyStrip name)) (pyLower n) ≤ 2 ∧
              ∀ x ∈ l1 ++ b :: l2,
                _edit_distance (pyLower (pyStrip name)) (pyLower n) ≤
                  _edit_distance (pyLower (pyStrip name)) (pyLower x))) b = true := by
          simp only [decide_eq_true_eq]
          exact ⟨by omega, fun x hx => by rw [hdb]; exact hall x hx⟩
        have hp1 : ∀ x ∈ l1, (fun n =>
            decide (_edit_distance (pyLower (pyStrip name)) (pyLower n) ≤ 2 ∧
              ∀ y ∈ l1 ++ b :: l2,
                _edit_distance (pyLower (pyStrip name)) (pyLower n) ≤
                  _edit_distance (pyLower (pyStrip name)) (pyLower y))) x = false := by
          intro x hx
          simp only [decide_eq_false_iff_not, not_and]
          intro _ hmin
          have h1 : _edit_distance (pyLower (pyStrip name)) (pyLower x) ≤
              _edit_distance (pyLower (pyStrip name)) (pyLower b) :=
            hmin b (List.mem_append_right _ (List.mem_cons_self _ _))
          have h2 := hbef x hx
          omega
        rw [find?_append_cons _ l1 b l2 hpb hp1]

theorem find_closest_match_far (r : CharacterRoster) (w : String)
    (hword : ∀ c ∈ w.data, isWordChar c = true)
    (hfar : ∀ n ∈ r.allNames, 2 < _edit_distance (pyLower w) (pyLower n)) :
    r.find_closest_match w = pyLower w := by
  unfold CharacterRoster.find_closest_match
  have hstrip : pyStrip w = w :=
    pyStrip_eq_self (fun c hc => isWordChar_not_whitespace (hword c hc))
  rw [hstrip]
  by_cases hempty : pyLower w = ""
  · rw [if_pos hempty]
  · rw [if_neg hempty]
    have hex : List.find? (fun n => pyLower w == pyLower n) r.allNames = none := by
      rw [List.find?_eq_none]
      intro x hx
      simp only [beq_iff_eq]
      intro hcontra
      have hd := hfar x hx
      rw [← hcontra] at hd
      rw [edit_distance_self] at hd
      omega
    rw [hex]
    dsimp only
    rw [fuzzyGo_none]
    have hs : fuzzySpec (pyLower w) r.allNames = none := by
      rw [fuzzySpec_none_iff]
      intro n hn
      have := hfar n hn
      omega
    rw [hs]

theorem correct_names_far (r : CharacterRoster) (text : String)
    (hfar : ∀ w ∈ findallWords text, 2 < w.length →
      ∀ n ∈ r.allNames, 2 < _edit_distance (pyLower w) (pyLower n)) :
    r.correct_names_in_text text = text := by
  unfold CharacterRoster.correct_names_in_text
  apply foldl_fixed
  intro w hw acc
  by_cases hlen : 2 < w.length
  · rw [if_pos hlen]
    have hword := (findallWords_token hw).2
    have hmatch := find_closest_match_far r w hword (hfar w hw hlen)
    rw [if_neg]
    intro hcontra
    apply hcontra.2
    rw [hmatch, pyLower_pyLower]
  · rw [if_neg hlen]

/-- C7: (1) a text all of whose word tokens longer than two characters are at
edit distance greater than 2 (case-insensitively) from every roster name is
returned unchanged by name correction, so a replacement can happen only when
some roster name is within distance 2 of the token; (2) find_closest_match is
exactly the spec selection rule: exact case-insensitive match first, otherwise
the smallest-distance candidate accepted only at distance at most 2, ties
broken by roster order, first seen wins; (3) with roster containing Thorin,
the input containing Thoron is corrected to contain Thorin. -/
theorem c7_name_correction :
    (∀ (r : CharacterRoster) (text : String),
      (∀ w ∈ findallWords text, 2 < w.length →
        ∀ n ∈ r.allNames, 2 < _edit_distance (pyLower w) (pyLower n)) →
      r.correct_names_in_text text = text) ∧
    (∀ (r : CharacterRoster) (name : String),
      r.find_closest_match name = findClosestSpec r name) ∧
    pyIn "Thorin" ((CharacterRoster.mk [("Thorin", "dwarf fighter")] []).correct_names_in_text
      "Thoron attacks") = true :=
  ⟨correct_names_far, find_closest_match_eq_spec, by decide⟩

/-- Witness for C7: applying its first part to a roster and a text whose only
long token is far from every roster name, and its second part at the same
input. -/
theorem c7_name_correction_witness :
    (CharacterRoster.mk [("Thorin", "dwarf fighter")] []).correct_names_in_text
        "hello" = "hello" ∧
    (CharacterRoster.mk [("Thorin", "dwarf fighter")] []).find_closest_match "hello" =
      findClosestSpec (CharacterRoster.mk [("Thorin", "dwarf fighter")] []) "hello" :=
  ⟨c7_name_correction.1 _ "hello" (by decide),
    c7_name_correction.2.1 _ "hello"⟩

/-- C10: blank (whitespace-only) text short-circuits validate_segment: the
text comes back untouched (no name correction) and no context-fit query,
transcriber call or LLM call is made. -/
theorem c10_blank_text_short_circuit (roster : Option CharacterRoster)
    (transcriber : Option Transcriber) (oracle : Oracle) (text context : String)
    (audio_path : Option String) (start_time end_time original_confidence : Option ℚ)
    (h : pyStrip text = "") :
    validate_segment roster transcriber oracle text context audio_path
      start_time end_time original_confidence = ⟨text, 0, 0, 0⟩ := by
  unfold validate_segment
  rw [if_pos h]

/-- Witness for C10: a whitespace-only text with every collaborator present
and every oracle eager to answer. -/
theorem c10_blank_text_short_circuit_witness :
    validate_segment none (some trFresh) oracleYes "  " "some context" (some "a.wav")
      (some 0) (some 1) (some (1 / 2)) = ⟨"  ", 0, 0, 0⟩ :=
  c10_blank_text_short_circuit none (some trFresh) oracleYes "  " "some context"
    (some "a.wav") (some 0) (some 1) (some (1 / 2)) (by decide)

/-- C1 (amended): when the context has non-whitespace content and every
context-fit query reports a fit, validate_segment returns the name-corrected
text (or the untouched blank text) after exactly one context-fit query, with
zero transcriber calls and zero LLM calls. -/
theorem c1_fits_short_circuit (roster : Option CharacterRoster)
    (transcriber : Option Transcriber) (oracle : Oracle) (text context : String)
    (audio_path : Option String) (start_time end_time original_confidence : Option ℚ)
    (hctx : pyStrip context ≠ "")
    (hfit : ∀ t c, check_context_fit oracle t c = true) :
    validate_segment roster transcriber oracle text context audio_path
        start_time end_time original_confidence =
      if pyStrip text = "" then ⟨text, 0, 0, 0⟩
      else ⟨nameCorrectOpt roster text, 1, 0, 0⟩ := by
  unfold validate_segment
  by_cases htext : pyStrip text = ""
  · rw [if_pos htext, if_pos htext]
  · rw [if_neg htext, if_neg htext]
    dsimp only
    rw [if_pos hctx, if_pos (hfit _ _)]

/-- Witness for C1: the always-fits oracle on a concrete non-blank text and
context leaves the text alone after a single fit query. -/
theorem c1_fits_short_circuit_witness :
    validate_segment none none oracleYes "hello" "ctx" none none none none =
      ⟨"hello", 1, 0, 0⟩ := by
  rw [c1_fits_short_circuit none none oracleYes "hello" "ctx" none none none none
    (by decide) (fun t c => rfl)]
  decide

/-- C1 counterexample: with an empty context no fit query is ever made (so
vacuously every fit query returns true), yet validate_segment still invokes
the LLM correction once and rewrites the text, contradicting the unrestricted
claim. -/
theorem c1_counterexample :
    (∀ t c, check_context_fit oracleYes t c = true) ∧
    validate_segment none none oracleYes "hello" "" none none none none =
      ⟨"changed", 0, 0, 1⟩ :=
  ⟨fun _ _ => rfl, by decide⟩

theorem _try_retranscription_changed (t : Transcriber) (original_text : String)
    (start_time end_time : ℚ) (oc : Option ℚ) (rd : RetransData) (rc : Nat)
    (hrr : _try_retranscription (some t) original_text start_time end_time oc = (rd, rc))
    (hdiff : rd.text ≠ original_text) :
    rc = 1 ∧ rd.confidence_improved =
      (oc.isNone || decide (oc.getD 0 + 5 / 100 < rd.confidence)) := by
  unfold _try_retranscription at hrr
  dsimp only at hrr
  cases hret : t.retranscribe start_time end_time with
  | error e =>
    rw [hret] at hrr
    dsimp only at hrr
    rw [Prod.mk.injEq] at hrr
    obtain ⟨h1, h2⟩ := hrr
    exact absurd (by rw [← h1]) hdiff
  | ok segs =>
    rw [hret] at hrr
    dsimp only at hrr
    split_ifs at hrr with h1 h2 h3
    · rw [Prod.mk.injEq] at hrr
      obtain ⟨ha, hb⟩ := hrr
      exact absurd (by rw [← ha]) hdiff
    · rw [Prod.mk.injEq] at hrr
      obtain ⟨ha, hb⟩ := hrr
      exact absurd (by rw [← ha]) hdiff
    · rw [Prod.mk.injEq] at hrr
      obtain ⟨ha, hb⟩ := hrr
      subst hb
      rw [← ha]
      exact ⟨rfl, rfl⟩
    · rw [Prod.mk.injEq] at hrr
      obtain ⟨ha, hb⟩ := hrr
      subst hb
      rw [← ha]
      exact ⟨rfl, rfl⟩

/-- C2 (amended): once the Retranscription state is reached (non-blank text
and context, first fit query negative, transcriber, audio and both timestamps
available) and the candidate text differs from the current name-corrected
text, the candidate is written back (with no LLM call) exactly when the
candidate fits the context on re-check, or the original confidence is absent,
or the candidate average confidence exceeds the original by more than 0.05;
otherwise the candidate is discarded and the LLM correction of the original
(name-corrected) text is returned. -/
theorem c2_retranscription_acceptance (roster : Option CharacterRoster)
    (t : Transcriber) (oracle : Oracle) (text context audio : String) (st et : ℚ)
    (oc : Option ℚ)
    (htext : pyStrip text ≠ "") (hctx : pyStrip context ≠ "")
    (hfit1 : check_context_fit oracle (nameCorrectOpt roster text) context = false)
    (rd : RetransData) (rc : Nat)
    (hrr : _try_retranscription (some t) (nameCorrectOpt roster text) st et oc = (rd, rc))
    (hdiff : rd.text ≠ nameCorrectOpt roster text) :
    (validate_segment roster (some t) oracle text context (some audio) (some st)
          (some et) oc = ⟨rd.text, 2, rc, 0⟩ ↔
        (check_context_fit oracle rd.text context = true ∨ oc = none ∨
          ∃ c, oc = some c ∧ c + 5 / 100 < rd.confidence)) ∧
    (¬ (check_context_fit oracle rd.text context = true ∨ oc = none ∨
          ∃ c, oc = some c ∧ c + 5 / 100 < rd.confidence) →
      validate_segment roster (some t) oracle text context (some audio) (some st)
          (some et) oc =
        ⟨llm_correct oracle (nameCorrectOpt roster text) context, 2, rc, 1⟩) := by
  obtain ⟨hrc, himp⟩ := _try_retranscription_changed t _ st et oc rd rc hrr hdiff
  subst hrc
  have hval : validate_segment roster (some t) oracle text context (some audio) (some st)
      (some et) oc =
      (if check_context_fit oracle rd.text context then ⟨rd.text, 2, 1, 0⟩
       else if rd.confidence_improved then (⟨rd.text, 2, 1, 0⟩ : ValidateResult)
       else ⟨llm_correct oracle (nameCorrectOpt roster text) context, 2, 1, 1⟩) := by
    unfold validate_segment
    rw [if_neg htext]
    dsimp only
    rw [if_pos hctx, if_neg (by rw [hfit1]; exact Bool.false_ne_true)]
    rw [hrr]
    dsimp only
    rw [if_pos hdiff]
  have hcond : (oc = none ∨ ∃ c, oc = some c ∧ c + 5 / 100 < rd.confidence) ↔
      rd.confidence_improved = true := by
    rw [himp]
    cases oc with
    | none => simp
    | some c => simp
  constructor
  · rw [hval]
    by_cases hfitc : check_context_fit oracle rd.text context = true
    · rw [if_pos hfitc]
      constructor
      · intro _
        exact Or.inl hfitc
      · intro _
        rfl
    · rw [if_neg hfitc]
      by_cases himpb : rd.confidence_improved = true
      · rw [if_pos himpb]
        constructor
        · intro _
          exact Or.inr (hcond.mpr himpb)
        · intro _
          rfl
      · rw [if_neg himpb]
        constructor
        · intro hcontra
          rw [ValidateResult.mk.injEq] at hcontra
          omega
        · intro hor
          rcases hor with h | h
          · exact absurd h hfitc
          · exact absurd (hcond.mp h) himpb
  · intro hnone
    have hfitc : ¬ check_context_fit oracle rd.text context = true :=
      fun h => hnone (Or.inl h)
    have himpb : ¬ rd.confidence_improved = true :=
      fun h => hnone (Or.inr (hcond.mpr h))
    rw [hval, if_neg hfitc, if_neg himpb]

/-- Witness for C2: a candidate that differs from the original and fits the
context on re-check is written back with no LLM call. -/
theorem c2_retranscription_acceptance_witness :
    validate_segment none (some trFresh) oracleCand "old stuff" "ctx" (some "a.wav")
      (some 0) (some 1) none = ⟨"new stuff here", 2, 1, 0⟩ :=
  (c2_retranscription_acceptance none trFresh oracleCand "old stuff" "ctx" "a.wav" 0 1
    none (by decide) (by decide) (by decide) ⟨"new stuff here", 0, true⟩ 1 (by decide)
    (by decide)).1.mpr (Or.inl (by decide))

/-- C2 counterexample: with no original confidence, a candidate that fails the
context re-check and reports average confidence 0 (so no confidence
comparison, let alone an improvement by 0.05, can hold) is still preferred and
written back, because the code treats an absent original confidence as an
automatic improvement; the claim instead demands that such a candidate be
discarded in favour of LLM correction. -/
theorem c2_counterexample :
    check_context_fit oracleNo "brand new words" "ctx" = false ∧
    validate_segment none (some trNoConf) oracleNo "hello there" "ctx" (some "a.wav")
      (some 0) (some 1) none = ⟨"brand new words", 2, 1, 0⟩ :=
  ⟨rfl, by decide⟩

end DndTranscriber
